import Mathlib

/-!
Shallow embedding of the chunking and relevance-ranking pipeline of
`paper_summarizer.py` (class `PaperSummarizer`).

Text is modelled as `List Char`.  Python integers are `Int`; Python slice
indices (which may be negative and are clamped) are modelled exactly by
`pyIndex`/`pySlice`.  The float threshold `chunk_size * 0.4` is modelled by
the exact rational comparison `5 * ls > 2 * chunk_size`, and the float
score `count + len(chunk)/1000` by the exact rational of the same shape
(the design data model calls the score a real number).

The `while start < len(text)` loop of `chunk_text` is modelled by a
fuel-indexed interpreter `chunkLoop`: `none` means the loop did not finish
within `fuel` iterations; `chunkLoopAcc` returns the chunks accumulated by
the same iterations (so that facts about every produced chunk can be
stated even for non-terminating configurations).
-/

/-- Whitespace test of the regex class `\s` (ASCII fragment) used by
`re.sub(r'\s+', ' ', text)` and `str.strip()`. -/
def pyIsSpace (c : Char) : Bool :=
  c == ' ' || c == '\t' || c == '\n' || c == '\r' ||
    c == Char.ofNat 11 || c == Char.ofNat 12

/-- One maximal whitespace run becomes a single space:
the embedding of `re.sub(r'\s+', ' ', text)`. -/
def collapseWS : List Char → List Char
  | [] => []
  | [c] => if pyIsSpace c then [' '] else [c]
  | c :: d :: rest =>
    if pyIsSpace c then
      if pyIsSpace d then collapseWS (d :: rest)
      else ' ' :: collapseWS (d :: rest)
    else c :: collapseWS (d :: rest)

/-- Remove trailing whitespace (the right half of `str.strip()`). -/
def dropEndWS (l : List Char) : List Char :=
  (l.reverse.dropWhile pyIsSpace).reverse

/-- The embedding of `str.strip()`. -/
def stripWS (l : List Char) : List Char :=
  dropEndWS (l.dropWhile pyIsSpace)

/-- `re.sub(r'\s+', ' ', text).strip()` — the text normalizer
(line 33 of `paper_summarizer.py`). -/
def normalizeWS (l : List Char) : List Char :=
  stripWS (collapseWS l)

/-- A character list is clean when its whitespace characters are all the
plain space and no two adjacent characters are both whitespace; the output
of `collapseWS` is clean, and `collapseWS` fixes clean lists. -/
def cleanB : List Char → Bool
  | [] => true
  | c :: cs =>
    (!(pyIsSpace c) || c == ' ')
    && (match cs.head? with
        | some d => !(pyIsSpace c && pyIsSpace d)
        | none => true)
    && cleanB cs

/-- Resolution of one Python slice index: negative indices count from the
end, and the result is clamped to `[0, n]`. -/
def pyIndex (n : Nat) (i : Int) : Nat :=
  if i < 0 then ((n : Int) + i).toNat else min i.toNat n

/-- The Python slice `l[s:e]`. -/
def pySlice (l : List Char) (s e : Int) : List Char :=
  (l.take (pyIndex l.length e)).drop (pyIndex l.length s)

/-- Does the two-character pattern `a, b` start at position `i`? -/
def hit2 (l : List Char) (a b : Char) (i : Nat) : Bool :=
  (l[i]? == some a) && (l[i + 1]? == some b)

/-- Largest element of a list of indices, `-1` when the list is empty. -/
def maxIdx (L : List Nat) : Int :=
  L.foldr (fun i m => max ((i : Nat) : Int) m) (-1)

/-- `str.rfind(a + b)` for a two-character pattern: the largest index at
which the pattern starts, `-1` when absent. -/
def rfind2 (l : List Char) (a b : Char) : Int :=
  maxIdx ((List.range l.length).filter (hit2 l a b))

/-- `max(chunk.rfind('. '), chunk.rfind('? '), chunk.rfind('! '))`
(lines 42–46). -/
def sentenceCut (chunk : List Char) : Int :=
  max (rfind2 chunk '.' ' ') (max (rfind2 chunk '?' ' ') (rfind2 chunk '!' ' '))

/-- Sentence-boundary adjustment of the slice end (lines 40–49):
only attempted when the slice is not final, and only taken when the cut
lies beyond `0.4 * chunk_size` (exact rational comparison `5*ls > 2*cs`). -/
def snapEnd (text : List Char) (cs start e0 : Int) : Int :=
  if e0 < (text.length : Int) then
    if 5 * sentenceCut (pySlice text start e0) > 2 * cs then
      start + sentenceCut (pySlice text start e0) + 2
    else e0
  else e0

/-- Fuel-indexed interpreter of the `while start < len(text)` loop of
`chunk_text` (lines 35–53).  `none`: the loop did not exit within `fuel`
iterations. -/
def chunkLoop : Nat → List Char → Int → Int → Int → List (List Char) →
    Option (List (List Char))
  | 0, _, _, _, _, _ => none
  | Nat.succ fuel, text, cs, ov, start, acc =>
    if start < (text.length : Int) then
      let e0 : Int := min (start + cs) (text.length : Int)
      let e1 : Int := snapEnd text cs start e0
      let ch : List Char := stripWS (pySlice text start e1)
      chunkLoop fuel text cs ov (e1 - ov) (if ch = [] then acc else acc ++ [ch])
    else some acc

/-- The chunks appended by the first `fuel` iterations of the same loop
(defined even when the loop never exits). -/
def chunkLoopAcc : Nat → List Char → Int → Int → Int → List (List Char) →
    List (List Char)
  | 0, _, _, _, _, acc => acc
  | Nat.succ fuel, text, cs, ov, start, acc =>
    if start < (text.length : Int) then
      let e0 : Int := min (start + cs) (text.length : Int)
      let e1 : Int := snapEnd text cs start e0
      let ch : List Char := stripWS (pySlice text start e1)
      chunkLoopAcc fuel text cs ov (e1 - ov) (if ch = [] then acc else acc ++ [ch])
    else acc

/-- `chunk_text(text, chunk_size, overlap)` under a fuel bound: the text is
normalized (line 33), then the loop runs from `start = 0` with no chunks. -/
def chunkTextFuel (fuel : Nat) (text : List Char) (cs ov : Int) :
    Option (List (List Char)) :=
  chunkLoop fuel (normalizeWS text) cs ov 0 []

/-- Chunks produced by the first `fuel` loop iterations of
`chunk_text(text, chunk_size, overlap)`. -/
def chunkTextAcc (fuel : Nat) (text : List Char) (cs ov : Int) :
    List (List Char) :=
  chunkLoopAcc fuel (normalizeWS text) cs ov 0 []

/-- Does `needle` occur at the very start of `hay`? -/
def begWith : List Char → List Char → Bool
  | [], _ => true
  | _ :: _, [] => false
  | n :: ns, h :: hs => n == h && begWith ns hs

/-- Python substring containment `needle in hay` (contiguous occurrence). -/
def occursIn (needle : List Char) : List Char → Bool
  | [] => begWith needle []
  | h :: hs => begWith needle (h :: hs) || occursIn needle hs

/-- The fixed domain-keyword list of `retrieve_relevant_chunks`
(lines 60–65). -/
def researchKeywords : List (List Char) :=
  ["abstract", "introduction", "method", "approach", "result",
   "finding", "conclusion", "contribution", "propose", "show",
   "demonstrate", "experiment", "evaluation", "performance",
   "research", "study", "analysis", "data", "model"].map String.toList

/-- Keyword-list-mode score of one chunk (lines 69–73): number of list
entries contained in the lower-cased chunk, plus `len(chunk) / 1000`. -/
def scoreChunk (chunk : List Char) : ℚ :=
  (researchKeywords.countP (fun kw => occursIn kw (chunk.map Char.toLower)) : ℚ)
    + (chunk.length : ℚ) / 1000

/-- The `scored_chunks` list built in input order (lines 67–74). -/
def scoredList (chunks : List (List Char)) : List (ℚ × List Char) :=
  chunks.map (fun c => (scoreChunk c, c))

/-- Stable insertion of one scored pair into a descending list: skip the
strictly greater keys, then place the pair in front of the first key that
is less than or equal (so an earlier pair with an equal key stays first). -/
def insD (p : ℚ × List Char) : List (ℚ × List Char) → List (ℚ × List Char)
  | [] => [p]
  | q :: qs => if p.1 < q.1 then q :: insD p qs else p :: q :: qs

/-- Stable descending sort on the score component: the embedding of
`scored_chunks.sort(reverse=True, key=lambda x: x[0])` (line 77), whose
documented semantics are a stable sort descending in the key. -/
def sortD : List (ℚ × List Char) → List (ℚ × List Char)
  | [] => []
  | p :: ps => insD p (sortD ps)

/-- The Python prefix slice `l[:k]`, including the negative-stop case
(`l[:-m]` drops the last `m` elements). -/
def pyTake (k : Int) (l : List (ℚ × List Char)) : List (ℚ × List Char) :=
  if 0 ≤ k then l.take k.toNat else l.take (l.length - (-k).toNat)

/-- `retrieve_relevant_chunks(chunks, top_k)` (lines 57–78): score every
chunk, sort stably by descending score, keep `scored_chunks[:top_k]`, and
return the chunk components. -/
def retrieveRelevantChunks (chunks : List (List Char)) (topK : Int) :
    List (List Char) :=
  (pyTake topK (sortD (scoredList chunks))).map Prod.snd

/-- The keyword-list-mode score in the words of the specification: the
number of distinct fixed domain keywords occurring case-insensitively as
substrings of the chunk, plus the chunk character length divided by 1000.
Written to be compared with `scoreChunk`, which is read off the code. -/
def specKeywordScore (chunk : List Char) : ℚ :=
  (((researchKeywords.filter
      (fun kw => occursIn kw (chunk.map Char.toLower))).dedup).length : ℚ)
    + (chunk.length : ℚ) / 1000

/-- Error raised by `summarize_paper` when too little text was extracted
(lines 118–119). -/
inductive SummaryError
  | insufficientContent

/-- The dictionary returned by `summarize_paper` (lines 154–160), minus
the echoed file path. -/
structure SummaryResult where
  chunksTotal : Nat
  chunksUsed : Nat
  summary : List Char
  textLength : Nat

/-- The labelled context block of line 135:
`"\n\n".join(f"Section {i+1}:\n{chunk}" ...)`. -/
def buildContext (relevant : List (List Char)) : List Char :=
  List.intercalate ("\n\n".toList)
    (relevant.enum.map
      (fun p => "Section ".toList ++ (Nat.repr (p.1 + 1)).toList
        ++ ":\n".toList ++ p.2))

/-- The generation prompt of lines 137–148 with the context spliced in. -/
def summaryPrompt (context : List Char) : List Char :=
  ("You are an expert at summarizing research papers. Based on the following excerpts from a research paper, provide a comprehensive summary.\n\nYour summary should include:\n1. The main research problem or question\n2. The methodology or approach used\n3. Key findings and results\n4. Main conclusions and contributions\n\nResearch paper excerpts:\n").toList
    ++ context
    ++ ("\n\nWrite a clear, well-structured summary in 3-4 paragraphs. Be specific and focus on the most important information.").toList

/-- `summarize_paper` after text extraction (lines 116–160): reject short
text, otherwise chunk (default parameters 600/100), select the top 4
chunks, build the prompt and call the generation backend `gen`.
`none`: the chunking loop did not finish within `fuel` iterations. -/
def summarizePaperCore (fuel : Nat) (gen : List Char → List Char)
    (text : List Char) : Option (Except SummaryError SummaryResult) :=
  if text.length < 100 then
    some (Except.error SummaryError.insufficientContent)
  else
    match chunkTextFuel fuel text 600 100 with
    | none => none
    | some chunks =>
      let relevant := retrieveRelevantChunks chunks 4
      some (Except.ok
        { chunksTotal := chunks.length
          chunksUsed := relevant.length
          summary := gen (summaryPrompt (buildContext relevant))
          textLength := text.length })

/-! ### Idempotence of the normalizer -/

lemma collapseWS_head_of_not_space {d : Char} (rest : List Char)
    (hd : pyIsSpace d = false) : (collapseWS (d :: rest)).head? = some d := by
  cases rest <;> simp [collapseWS, hd]

lemma cleanB_collapseWS (l : List Char) : cleanB (collapseWS l) = true := by
  induction l with
  | nil => rfl
  | cons c cs ih =>
    cases cs with
    | nil =>
      by_cases hc : pyIsSpace c = true <;> simp [collapseWS, cleanB, hc]
    | cons d rest =>
      by_cases hc : pyIsSpace c = true
      · by_cases hd : pyIsSpace d = true
        · simpa [collapseWS, hc, hd] using ih
        · simp only [Bool.not_eq_true] at hd
          simp [collapseWS, cleanB, hc, hd, collapseWS_head_of_not_space rest hd, ih]
      · simp only [Bool.not_eq_true] at hc
        cases hX : (collapseWS (d :: rest)).head? <;>
          simp [collapseWS, cleanB, hc, hX, ih]

lemma cleanB_tail {c : Char} {cs : List Char} (h : cleanB (c :: cs) = true) :
    cleanB cs = true := by
  simp only [cleanB, Bool.and_eq_true] at h
  exact h.2

lemma cleanB_space_eq {c : Char} {cs : List Char} (h : cleanB (c :: cs) = true)
    (hs : pyIsSpace c = true) : c = ' ' := by
  simp only [cleanB, Bool.and_eq_true, Bool.or_eq_true, Bool.not_eq_true] at h
  rcases h.1.1 with h1 | h1
  · rw [hs] at h1; cases h1
  · exact eq_of_beq h1

lemma cleanB_no_double {c d : Char} {cs : List Char}
    (h : cleanB (c :: d :: cs) = true) (hc : pyIsSpace c = true) :
    pyIsSpace d = false := by
  by_cases hd : pyIsSpace d = true
  · exfalso
    simp [cleanB, hc, hd] at h
  · simpa using hd

lemma collapseWS_of_cleanB (l : List Char) (h : cleanB l = true) :
    collapseWS l = l := by
  induction l with
  | nil => rfl
  | cons c cs ih =>
    cases cs with
    | nil =>
      by_cases hc : pyIsSpace c = true
      · have := cleanB_space_eq h hc
        simp [collapseWS, hc, this]
      · simp only [Bool.not_eq_true] at hc
        simp [collapseWS, hc]
    | cons d rest =>
      by_cases hc : pyIsSpace c = true
      · have hd := cleanB_no_double h hc
        have hce := cleanB_space_eq h hc
        simp [collapseWS, hc, hd, ih (cleanB_tail h), hce]
      · simp only [Bool.not_eq_true] at hc
        simp [collapseWS, hc, ih (cleanB_tail h)]

lemma cleanB_append_left (l₁ l₂ : List Char)
    (h : cleanB (l₁ ++ l₂) = true) : cleanB l₁ = true := by
  induction l₁ with
  | nil => rfl
  | cons c cs ih =>
    have ht : cleanB (cs ++ l₂) = true := cleanB_tail h
    simp only [cleanB, Bool.and_eq_true]
    refine ⟨⟨?_, ?_⟩, ih ht⟩
    · simp only [List.cons_append, cleanB, Bool.and_eq_true] at h
      exact h.1.1
    · cases cs with
      | nil => simp
      | cons e rest =>
        simp only [List.cons_append, cleanB, List.head?, Bool.and_eq_true] at h
        exact h.1.2

lemma cleanB_dropWhile (p : Char → Bool) (l : List Char)
    (h : cleanB l = true) : cleanB (l.dropWhile p) = true := by
  induction l with
  | nil => exact h
  | cons c cs ih =>
    by_cases hc : p c = true
    · rw [List.dropWhile_cons_of_pos hc]
      exact ih (cleanB_tail h)
    · simp only [Bool.not_eq_true] at hc
      rw [List.dropWhile_cons_of_neg (by simp [hc])]
      exact h

lemma splitEndWS (l : List Char) :
    l = dropEndWS l ++ (l.reverse.takeWhile pyIsSpace).reverse := by
  unfold dropEndWS
  rw [← List.reverse_append, List.takeWhile_append_dropWhile, List.reverse_reverse]

lemma cleanB_dropEndWS (l : List Char) (h : cleanB l = true) :
    cleanB (dropEndWS l) = true := by
  apply cleanB_append_left (dropEndWS l) ((l.reverse.takeWhile pyIsSpace).reverse)
  rw [← splitEndWS l]
  exact h

lemma cleanB_stripWS (l : List Char) (h : cleanB l = true) :
    cleanB (stripWS l) = true :=
  cleanB_dropEndWS _ (cleanB_dropWhile _ _ h)

lemma head_dropWhile_not (p : Char → Bool) :
    ∀ (l : List Char) (a : Char), (l.dropWhile p).head? = some a → p a = false := by
  intro l
  induction l with
  | nil => intro a ha; cases ha
  | cons c cs ih =>
    intro a ha
    by_cases hc : p c = true
    · rw [List.dropWhile_cons_of_pos hc] at ha
      exact ih a ha
    · simp only [Bool.not_eq_true] at hc
      rw [List.dropWhile_cons_of_neg (by simp [hc])] at ha
      cases ha
      exact hc

lemma dropWhile_of_head_false (p : Char → Bool) (l : List Char)
    (h : ∀ a, l.head? = some a → p a = false) : l.dropWhile p = l := by
  cases l with
  | nil => rfl
  | cons c cs =>
    rw [List.dropWhile_cons_of_neg (by simp [h c rfl])]

lemma dropWhile_dropWhile (p : Char → Bool) (l : List Char) :
    (l.dropWhile p).dropWhile p = l.dropWhile p :=
  dropWhile_of_head_false p _ (head_dropWhile_not p l)

lemma dropEndWS_reverse (l : List Char) :
    (dropEndWS l).reverse = l.reverse.dropWhile pyIsSpace := by
  simp [dropEndWS]

lemma dropEndWS_idem (l : List Char) : dropEndWS (dropEndWS l) = dropEndWS l := by
  unfold dropEndWS
  rw [List.reverse_reverse, dropWhile_dropWhile]

lemma head_dropEndWS (l : List Char) :
    dropEndWS l = [] ∨ (dropEndWS l).head? = l.head? := by
  cases h : dropEndWS l with
  | nil => exact Or.inl rfl
  | cons x xs =>
    right
    conv_rhs => rw [splitEndWS l, h]
    simp

lemma stripWS_idem (l : List Char) : stripWS (stripWS l) = stripWS l := by
  unfold stripWS
  have hA : (dropEndWS (l.dropWhile pyIsSpace)).dropWhile pyIsSpace
      = dropEndWS (l.dropWhile pyIsSpace) := by
    apply dropWhile_of_head_false
    intro a ha
    rcases head_dropEndWS (l.dropWhile pyIsSpace) with he | he
    · rw [he] at ha; cases ha
    · rw [he] at ha
      exact head_dropWhile_not pyIsSpace l a ha
  rw [hA, dropEndWS_idem]

lemma normalizeWS_idem (l : List Char) :
    normalizeWS (normalizeWS l) = normalizeWS l := by
  unfold normalizeWS
  rw [collapseWS_of_cleanB _ (cleanB_stripWS _ (cleanB_collapseWS l)), stripWS_idem]

/-! ### Slices, sentence cuts and the chunking loop -/

lemma pyIndex_le (n : Nat) (i : Int) : pyIndex n i ≤ n := by
  unfold pyIndex
  split_ifs with h
  · omega
  · exact Nat.min_le_right _ _

lemma pySlice_length (l : List Char) (s e : Int) :
    (pySlice l s e).length = pyIndex l.length e - pyIndex l.length s := by
  unfold pySlice
  rw [List.length_drop, List.length_take, Nat.min_eq_left (pyIndex_le _ _)]

lemma pySlice_length_le (l : List Char) (s e : Int) (h : s ≤ e) :
    ((pySlice l s e).length : Int) ≤ e - s := by
  rw [pySlice_length]
  unfold pyIndex
  split_ifs <;> (try simp only [Nat.min_def]) <;> (try split_ifs) <;> omega

lemma stripWS_length_le (l : List Char) : (stripWS l).length ≤ l.length := by
  unfold stripWS dropEndWS
  have h1 : (l.dropWhile pyIsSpace).length ≤ l.length :=
    (List.dropWhile_sublist _).length_le
  have h2 : ((l.dropWhile pyIsSpace).reverse.dropWhile pyIsSpace).length
      ≤ (l.dropWhile pyIsSpace).reverse.length :=
    (List.dropWhile_sublist _).length_le
  simp only [List.length_reverse] at h2 ⊢
  omega

lemma maxIdx_ge (L : List Nat) : -1 ≤ maxIdx L := by
  unfold maxIdx
  induction L with
  | nil => simp
  | cons j L ih =>
    simp only [List.foldr]
    exact le_trans ih (le_max_right _ _)

lemma maxIdx_mem (L : List Nat) :
    maxIdx L = -1 ∨ ∃ i ∈ L, maxIdx L = (i : Int) := by
  induction L with
  | nil => exact Or.inl rfl
  | cons j L ih =>
    have hstep : maxIdx (j :: L) = max (j : Int) (maxIdx L) := rfl
    rcases le_total (maxIdx L) ((j : Nat) : Int) with h | h
    · right
      exact ⟨j, by simp, by rw [hstep, max_eq_left h]⟩
    · rcases ih with h0 | ⟨i, hi, he⟩
      · right
        refine ⟨j, by simp, ?_⟩
        rw [hstep, h0, max_eq_left (by omega)]
      · right
        exact ⟨i, by simp [hi], by rw [hstep, max_eq_right h, he]⟩

lemma rfind2_ge (l : List Char) (a b : Char) : -1 ≤ rfind2 l a b :=
  maxIdx_ge _

lemma rfind2_hit (l : List Char) (a b : Char) (h : 0 ≤ rfind2 l a b) :
    ∃ i : Nat, (i : Int) = rfind2 l a b ∧ l[i + 1]? = some b := by
  unfold rfind2 at h ⊢
  rcases maxIdx_mem ((List.range l.length).filter (hit2 l a b)) with h0 | ⟨i, hi, he⟩
  · rw [h0] at h; omega
  · refine ⟨i, he.symm, ?_⟩
    have h2 := (List.mem_filter.mp hi).2
    simp only [hit2, Bool.and_eq_true, beq_iff_eq] at h2
    exact h2.2

lemma rfind2_add_two_le (l : List Char) (a b : Char) (h : 0 ≤ rfind2 l a b) :
    rfind2 l a b + 2 ≤ (l.length : Int) := by
  obtain ⟨i, hi, hb⟩ := rfind2_hit l a b h
  have hlt : i + 1 < l.length := by
    rw [List.getElem?_eq_some] at hb
    exact hb.1
  omega

lemma sentenceCut_ge (chunk : List Char) : -1 ≤ sentenceCut chunk :=
  le_trans (rfind2_ge _ _ _) (le_max_left _ _)

lemma sentenceCut_add_two_le (chunk : List Char) (h : 0 ≤ sentenceCut chunk) :
    sentenceCut chunk + 2 ≤ (chunk.length : Int) := by
  unfold sentenceCut at h ⊢
  rcases max_choice (rfind2 chunk '.' ' ')
      (max (rfind2 chunk '?' ' ') (rfind2 chunk '!' ' ')) with h1 | h1 <;>
    rw [h1] at h ⊢
  · exact rfind2_add_two_le _ _ _ h
  · rcases max_choice (rfind2 chunk '?' ' ') (rfind2 chunk '!' ' ') with h2 | h2 <;>
      rw [h2] at h ⊢
    · exact rfind2_add_two_le _ _ _ h
    · exact rfind2_add_two_le _ _ _ h

lemma snapEnd_le (text : List Char) (cs s e : Int) (hcs : 0 < cs) (hse : s ≤ e) :
    snapEnd text cs s e ≤ e := by
  unfold snapEnd
  split_ifs with h1 h2
  · have hls : 0 ≤ sentenceCut (pySlice text s e) := by omega
    have h3 := sentenceCut_add_two_le (pySlice text s e) hls
    have h4 := pySlice_length_le text s e hse
    omega
  · exact le_refl e
  · exact le_refl e

lemma snapEnd_ge (text : List Char) (cs s e : Int) (hse : s ≤ e) :
    s ≤ snapEnd text cs s e := by
  unfold snapEnd
  split_ifs with h1 h2
  · have := sentenceCut_ge (pySlice text s e)
    omega
  · exact hse
  · exact hse

lemma chunkLoopAcc_bound (text : List Char) (cs ov : Int) (hcs : 0 < cs) :
    ∀ (fuel : Nat) (s : Int) (acc : List (List Char)),
      (∀ c ∈ acc, (c.length : Int) ≤ cs) →
      ∀ c ∈ chunkLoopAcc fuel text cs ov s acc, (c.length : Int) ≤ cs := by
  intro fuel
  induction fuel with
  | zero =>
    intro s acc hacc
    simpa [chunkLoopAcc] using hacc
  | succ n ih =>
    intro s acc hacc
    simp only [chunkLoopAcc]
    split_ifs with hlt hch
    · exact ih _ _ hacc
    · apply ih
      intro c hc
      rcases List.mem_append.mp hc with h | h
      · exact hacc c h
      · have hc' : c = stripWS (pySlice text s
            (snapEnd text cs s (min (s + cs) (text.length : Int)))) := by
          simpa using h
        subst hc'
        have h0 : s ≤ min (s + cs) (text.length : Int) :=
          le_min (by omega) (by omega)
        have h1 := snapEnd_le text cs s (min (s + cs) (text.length : Int)) hcs h0
        have h2 := snapEnd_ge text cs s (min (s + cs) (text.length : Int)) h0
        have h3 := pySlice_length_le text s
          (snapEnd text cs s (min (s + cs) (text.length : Int))) h2
        have h4 := stripWS_length_le (pySlice text s
          (snapEnd text cs s (min (s + cs) (text.length : Int))))
        have h5 : min (s + cs) (text.length : Int) ≤ s + cs := min_le_left _ _
        omega
    · exact hacc

lemma chunkLoop_eq_acc :
    ∀ (fuel : Nat) (text : List Char) (cs ov s : Int) (acc res : List (List Char)),
      chunkLoop fuel text cs ov s acc = some res →
      res = chunkLoopAcc fuel text cs ov s acc := by
  intro fuel
  induction fuel with
  | zero =>
    intro text cs ov s acc res h
    simp [chunkLoop] at h
  | succ n ih =>
    intro text cs ov s acc res h
    simp only [chunkLoop] at h
    simp only [chunkLoopAcc]
    split_ifs at h ⊢ with hlt hch
    · exact ih _ _ _ _ _ _ h
    · exact ih _ _ _ _ _ _ h
    · exact (Option.some.inj h).symm

lemma chunkLoop_stuck (text : List Char) (cs ov : Int) (hov : 0 < ov)
    (hoc : ov ≤ cs) :
    ∀ (fuel : Nat) (acc : List (List Char)),
      chunkLoop fuel text cs ov ((text.length : Int) - ov) acc = none := by
  intro fuel
  induction fuel with
  | zero => intro acc; rfl
  | succ n ih =>
    intro acc
    have h1 : (text.length : Int) - ov < (text.length : Int) := by omega
    have h2 : min ((text.length : Int) - ov + cs) (text.length : Int)
        = (text.length : Int) := min_eq_right (by omega)
    have h3 : snapEnd text cs ((text.length : Int) - ov) (text.length : Int)
        = (text.length : Int) := by
      unfold snapEnd
      rw [if_neg (lt_irrefl _)]
    simp only [chunkLoop, h2, h3, if_pos h1]
    exact ih _

/-! ### The stable descending sort of the selector -/

lemma insD_perm (p : ℚ × List Char) (l : List (ℚ × List Char)) :
    (insD p l).Perm (p :: l) := by
  induction l with
  | nil => exact List.Perm.refl _
  | cons r l ih =>
    unfold insD
    split_ifs with h
    · exact ((ih.cons r).trans (List.Perm.swap p r l))
    · exact List.Perm.refl _

lemma sortD_perm (l : List (ℚ × List Char)) : (sortD l).Perm l := by
  induction l with
  | nil => exact List.Perm.refl _
  | cons p l ih =>
    exact (insD_perm p (sortD l)).trans (ih.cons p)

lemma insD_sorted (p : ℚ × List Char) (l : List (ℚ × List Char))
    (h : l.Pairwise (fun a b => b.1 ≤ a.1)) :
    (insD p l).Pairwise (fun a b => b.1 ≤ a.1) := by
  induction l with
  | nil => simp [insD]
  | cons r l ih =>
    rw [List.pairwise_cons] at h
    unfold insD
    split_ifs with hlt
    · rw [List.pairwise_cons]
      constructor
      · intro x hx
        rcases List.mem_cons.mp ((insD_perm p l).mem_iff.mp hx) with hx' | hx'
        · rw [hx']
          exact le_of_lt hlt
        · exact h.1 x hx'
      · exact ih h.2
    · rw [List.pairwise_cons]
      constructor
      · intro x hx
        rcases List.mem_cons.mp hx with hx' | hx'
        · rw [hx']
          exact not_lt.mp hlt
        · exact (h.1 x hx').trans (not_lt.mp hlt)
      · exact List.pairwise_cons.mpr h

lemma sortD_sorted (l : List (ℚ × List Char)) :
    (sortD l).Pairwise (fun a b => b.1 ≤ a.1) := by
  induction l with
  | nil => simp [sortD]
  | cons p l ih => exact insD_sorted p (sortD l) ih

lemma insD_filter_eq (p : ℚ × List Char) (l : List (ℚ × List Char)) (q : ℚ)
    (hp : p.1 = q) :
    (insD p l).filter (fun r => decide (r.1 = q))
      = p :: l.filter (fun r => decide (r.1 = q)) := by
  induction l with
  | nil => simp [insD, hp]
  | cons r l ih =>
    unfold insD
    split_ifs with hlt
    · have hr : ¬(r.1 = q) := by
        rw [← hp]
        intro hcontra
        rw [hcontra] at hlt
        exact absurd hlt (lt_irrefl _)
      simp only [List.filter_cons, decide_eq_true_eq]
      rw [if_neg (by simpa using hr), if_neg (by simpa using hr)]
      exact ih
    · simp [List.filter_cons, hp]

lemma insD_filter_ne (p : ℚ × List Char) (l : List (ℚ × List Char)) (q : ℚ)
    (hp : ¬(p.1 = q)) :
    (insD p l).filter (fun r => decide (r.1 = q))
      = l.filter (fun r => decide (r.1 = q)) := by
  induction l with
  | nil => simp [insD, hp]
  | cons r l ih =>
    unfold insD
    split_ifs with hlt
    · simp only [List.filter_cons]
      rw [ih]
    · simp [List.filter_cons, hp]

lemma sortD_filter (l : List (ℚ × List Char)) (q : ℚ) :
    (sortD l).filter (fun r => decide (r.1 = q))
      = l.filter (fun r => decide (r.1 = q)) := by
  induction l with
  | nil => rfl
  | cons p l ih =>
    by_cases hp : p.1 = q
    · rw [sortD, insD_filter_eq p (sortD l) q hp, ih]
      simp [List.filter_cons, hp]
    · rw [sortD, insD_filter_ne p (sortD l) q hp, ih]
      simp [List.filter_cons, hp]

lemma scoredList_map_snd (chunks : List (List Char)) :
    (scoredList chunks).map Prod.snd = chunks := by
  induction chunks with
  | nil => rfl
  | cons c cs ih => simpa [scoredList] using ih

lemma sortD_scored_length (chunks : List (List Char)) :
    (sortD (scoredList chunks)).length = chunks.length := by
  rw [(sortD_perm _).length_eq]
  simp [scoredList]

lemma mem_sortD_fst {p : ℚ × List Char} {chunks : List (List Char)}
    (hp : p ∈ sortD (scoredList chunks)) : p.1 = scoreChunk p.2 := by
  have hmem : p ∈ scoredList chunks := (sortD_perm _).mem_iff.mp hp
  rcases List.mem_map.mp hmem with ⟨c, _, rfl⟩
  rfl

/-! ### The claims -/

/-- C1: the claim says that for every configuration with
`0 ≤ overlap < chunk_size` the chunking loop of `chunk_text` terminates
because the cursor `start` strictly increases each iteration.  The code
violates this: with the default valid configuration `chunk_size = 600`,
`overlap = 100` and the input `"hi"`, after the final slice the cursor is
reset to `len(text) - overlap < len(text)` and never changes again, so the
loop never exits — the fueled interpreter returns `none` for every fuel
bound. -/
theorem c1_chunk_text_nontermination (fuel : Nat) :
    chunkTextFuel fuel ("hi".toList) 600 100 = none := by
  cases fuel with
  | zero => rfl
  | succ n =>
    have hstep : chunkTextFuel (n + 1) ("hi".toList) 600 100
        = chunkLoop n ("hi".toList) 600 100
          ((("hi".toList).length : Int) - 100) ["hi".toList] := rfl
    rw [hstep]
    exact chunkLoop_stuck ("hi".toList) 600 100 (by norm_num) (by norm_num) n _

/-- C2: the claim says `chunk_text` rejects any configuration with
`overlap ≥ chunk_size` before chunking begins.  The code performs no such
validation: at `chunk_size = overlap = 5` on the input `"hi"` it enters the
loop and never terminates (no error value exists anywhere in its type),
the fueled interpreter returning `none` for every fuel bound. -/
theorem c2_no_configuration_rejection (fuel : Nat) :
    chunkTextFuel fuel ("hi".toList) 5 5 = none := by
  cases fuel with
  | zero => rfl
  | succ n =>
    have hstep : chunkTextFuel (n + 1) ("hi".toList) 5 5
        = chunkLoop n ("hi".toList) 5 5
          ((("hi".toList).length : Int) - 5) ["hi".toList] := rfl
    rw [hstep]
    exact chunkLoop_stuck ("hi".toList) 5 5 (by norm_num) (by norm_num) n _

/-- C3: the claim says a non-empty input shorter than `chunk_size` yields,
under the default parameters `600/100`, exactly one chunk equal to the
trimmed whole normalized text.  The code instead loops forever on such
inputs: on `"hello world"` (11 characters after normalization) the cursor
is reset to `11 - 100` after the single full slice and stays there, so
`chunk_text` never returns — `none` at every fuel bound. -/
theorem c3_short_document_nontermination (fuel : Nat) :
    chunkTextFuel fuel ("hello world".toList) 600 100 = none := by
  cases fuel with
  | zero => rfl
  | succ n =>
    have hstep : chunkTextFuel (n + 1) ("hello world".toList) 600 100
        = chunkLoop n ("hello world".toList) 600 100
          ((("hello world".toList).length : Int) - 100) ["hello world".toList] := rfl
    rw [hstep]
    exact chunkLoop_stuck ("hello world".toList) 600 100
      (by norm_num) (by norm_num) n _

/-- C4: the claim says for every text and every `chunk_size > overlap ≥ 0`
the returned chunk spans cover the normalized text.  For every positive
overlap on non-empty text the code returns nothing at all: at the valid
configuration `chunk_size = 40`, `overlap = 5` on `"abc"` the loop never
exits, the fueled interpreter returning `none` for every fuel bound. -/
theorem c4_coverage_nontermination (fuel : Nat) :
    chunkTextFuel fuel ("abc".toList) 40 5 = none := by
  cases fuel with
  | zero => rfl
  | succ n =>
    have hstep : chunkTextFuel (n + 1) ("abc".toList) 40 5
        = chunkLoop n ("abc".toList) 40 5
          ((("abc".toList).length : Int) - 5) ["abc".toList] := rfl
    rw [hstep]
    exact chunkLoop_stuck ("abc".toList) 40 5 (by norm_num) (by norm_num) n _

/-- C5: every chunk ever appended by the chunking loop (within any fuel
bound, hence in particular every chunk of a terminating run) has length at
most `chunk_size`, and the sentence-boundary adjustment `snapEnd` only
shrinks a slice end, never grows it. -/
theorem c5_chunk_length_bounded (fuel : Nat) (text : List Char)
    (cs ov : Int) (t2 : List Char) (s e : Int) (hcs : 0 < cs) (hse : s ≤ e) :
    (∀ c ∈ chunkTextAcc fuel text cs ov, (c.length : Int) ≤ cs)
    ∧ snapEnd t2 cs s e ≤ e := by
  constructor
  · exact chunkLoopAcc_bound (normalizeWS text) cs ov hcs fuel 0 []
      (by intro c hc; cases hc)
  · exact snapEnd_le t2 cs s e hcs hse

/-- Witness for C5 at concrete inputs: fuel 2, text `"ab"`, chunk size
600, overlap 0 (a terminating configuration producing one chunk). -/
theorem c5_chunk_length_bounded_witness :
    (∀ c ∈ chunkTextAcc 2 ("ab".toList) 600 0, (c.length : Int) ≤ 600)
    ∧ snapEnd [] 600 0 0 ≤ 0 :=
  c5_chunk_length_bounded 2 ("ab".toList) 600 0 [] 0 0 (by norm_num) (le_refl 0)

/-- C6: the keyword-list-mode score computed by
`retrieve_relevant_chunks` equals the number of distinct fixed domain
keywords occurring case-insensitively as substrings of the chunk plus the
chunk character length divided by 1000, and every score is non-negative. -/
theorem c6_keyword_score (chunk : List Char) :
    scoreChunk chunk = specKeywordScore chunk ∧ 0 ≤ scoreChunk chunk := by
  constructor
  · unfold scoreChunk specKeywordScore
    have hnd : researchKeywords.Nodup := by decide
    rw [List.Nodup.dedup (hnd.filter _), ← List.countP_eq_length_filter]
  · unfold scoreChunk
    positivity

/-- C7: for `top_k > 0`, `retrieve_relevant_chunks` returns exactly
`min top_k n` chunks, all drawn from the input, in descending score order;
the underlying sort is stable (elements of any fixed score keep their
input order), the output is precisely the first `top_k` entries of the
sorted sequence, and when the input has at most `top_k` chunks the output
is a permutation of the whole input. -/
theorem c7_retrieve_topk (chunks : List (List Char)) (k : Int) (q : ℚ)
    (hk : 0 < k) :
    (retrieveRelevantChunks chunks k).length = min k.toNat chunks.length
    ∧ (∀ c ∈ retrieveRelevantChunks chunks k, c ∈ chunks)
    ∧ (retrieveRelevantChunks chunks k).Pairwise
        (fun a b => scoreChunk b ≤ scoreChunk a)
    ∧ (sortD (scoredList chunks)).filter (fun p => decide (p.1 = q))
        = (scoredList chunks).filter (fun p => decide (p.1 = q))
    ∧ retrieveRelevantChunks chunks k
        = ((sortD (scoredList chunks)).take k.toNat).map Prod.snd
    ∧ ((chunks.length : Int) ≤ k →
        (retrieveRelevantChunks chunks k).Perm chunks) := by
  have hout : retrieveRelevantChunks chunks k
      = ((sortD (scoredList chunks)).take k.toNat).map Prod.snd := by
    unfold retrieveRelevantChunks pyTake
    rw [if_pos (le_of_lt hk)]
  refine ⟨?_, ?_, ?_, sortD_filter _ q, hout, ?_⟩
  · rw [hout, List.length_map, List.length_take, sortD_scored_length]
  · intro c hc
    rw [hout] at hc
    rcases List.mem_map.mp hc with ⟨p, hp, rfl⟩
    have hp2 : p ∈ sortD (scoredList chunks) := (List.take_sublist _ _).mem hp
    have hp3 : p ∈ scoredList chunks := (sortD_perm _).mem_iff.mp hp2
    rcases List.mem_map.mp hp3 with ⟨c0, hc0, rfl⟩
    exact hc0
  · rw [hout, List.pairwise_map]
    have ht : ((sortD (scoredList chunks)).take k.toNat).Pairwise
        (fun a b => b.1 ≤ a.1) :=
      (sortD_sorted _).sublist (List.take_sublist _ _)
    refine List.Pairwise.imp_of_mem ?_ ht
    intro a b ha hb hab
    have ha2 := mem_sortD_fst ((List.take_sublist _ _).mem ha)
    have hb2 := mem_sortD_fst ((List.take_sublist _ _).mem hb)
    rw [← ha2, ← hb2]
    exact hab
  · intro hlen
    rw [hout, List.take_of_length_le (by rw [sortD_scored_length]; omega)]
    have h1 : ((sortD (scoredList chunks)).map Prod.snd).Perm
        ((scoredList chunks).map Prod.snd) := (sortD_perm _).map _
    rw [scoredList_map_snd] at h1
    exact h1

/-- Witness for C7 at the concrete input `[['a'], ['b']]`, `top_k = 1`,
score value 0. -/
theorem c7_retrieve_topk_witness :
    (retrieveRelevantChunks [['a'], ['b']] 1).length
        = min (1 : Int).toNat ([['a'], ['b']] : List (List Char)).length
    ∧ (∀ c ∈ retrieveRelevantChunks [['a'], ['b']] 1, c ∈ [['a'], ['b']])
    ∧ (retrieveRelevantChunks [['a'], ['b']] 1).Pairwise
        (fun a b => scoreChunk b ≤ scoreChunk a)
    ∧ (sortD (scoredList [['a'], ['b']])).filter (fun p => decide (p.1 = 0))
        = (scoredList [['a'], ['b']]).filter (fun p => decide (p.1 = 0))
    ∧ retrieveRelevantChunks [['a'], ['b']] 1
        = ((sortD (scoredList [['a'], ['b']])).take (1 : Int).toNat).map Prod.snd
    ∧ ((([['a'], ['b']] : List (List Char)).length : Int) ≤ 1 →
        (retrieveRelevantChunks [['a'], ['b']] 1).Perm [['a'], ['b']]) :=
  c7_retrieve_topk [['a'], ['b']] 1 0 (by norm_num)

/-- C8 counterexample: the claim says any `top_k ≤ 0` yields an empty
result, but Python slicing makes a negative `top_k` drop elements from the
end instead: at `top_k = -1` with two input chunks the code returns one
chunk, not none. -/
theorem c8_negative_topk_counterexample :
    (-1 : Int) ≤ 0 ∧ retrieveRelevantChunks [['a'], ['b']] (-1) ≠ [] := by
  have ha : scoreChunk ['a'] = 1 / 1000 := by
    have h1 : (researchKeywords.countP
        (fun kw => occursIn kw (List.map Char.toLower ['a']))) = 0 := by decide
    rw [scoreChunk, h1]
    norm_num
  have hb : scoreChunk ['b'] = 1 / 1000 := by
    have h1 : (researchKeywords.countP
        (fun kw => occursIn kw (List.map Char.toLower ['b']))) = 0 := by decide
    rw [scoreChunk, h1]
    norm_num
  have hval : retrieveRelevantChunks [['a'], ['b']] (-1) = [['a']] := by
    simp [retrieveRelevantChunks, scoredList, sortD, insD, ha, hb, pyTake]
  refine ⟨by norm_num, ?_⟩
  rw [hval]
  simp

/-- C8 amended: `top_k = 0` returns the empty sequence; a negative
`top_k` instead returns the sorted chunks with the last `-top_k` dropped
(Python slice semantics), so the result is non-empty whenever the input
holds more than `-top_k` chunks. -/
theorem c8_nonpos_topk_amended (chunks : List (List Char)) (k : Int) :
    (k = 0 → retrieveRelevantChunks chunks k = [])
    ∧ (k < 0 → (retrieveRelevantChunks chunks k).length
        = chunks.length - (-k).toNat) := by
  constructor
  · rintro rfl
    unfold retrieveRelevantChunks pyTake
    simp
  · intro hk
    unfold retrieveRelevantChunks pyTake
    rw [if_neg (by omega), List.length_map, List.length_take,
      sortD_scored_length, Nat.min_eq_left (Nat.sub_le _ _)]

/-- Witness for C8's amended claim: `top_k = 0` on a singleton input. -/
theorem c8_nonpos_topk_amended_witness :
    retrieveRelevantChunks [['a']] 0 = [] :=
  (c8_nonpos_topk_amended [['a']] 0).1 rfl

/-- C9: whenever the extracted text has fewer than 100 characters,
`summarize_paper` signals the insufficient-content error, independently of
the fuel given to the chunking loop and of the generation backend — i.e.
before any chunking, scoring or generation happens. -/
theorem c9_insufficient_content (fuel : Nat) (gen : List Char → List Char)
    (text : List Char) (h : text.length < 100) :
    summarizePaperCore fuel gen text
      = some (Except.error SummaryError.insufficientContent) := by
  unfold summarizePaperCore
  rw [if_pos h]

/-- Witness for C9: the two-character text `"hi"` with zero fuel and the
identity generator. -/
theorem c9_insufficient_content_witness :
    summarizePaperCore 0 id ("hi".toList)
      = some (Except.error SummaryError.insufficientContent) :=
  c9_insufficient_content 0 id ("hi".toList) (by decide)

/-- C10: `chunk_text` depends only on the whitespace-normalized form of
its input: running it on any raw text equals running it on the normalized
text, at every parameter choice and fuel bound (because the internal
normalization is idempotent). -/
theorem c10_normalization_invariance (fuel : Nat) (raw : List Char)
    (cs ov : Int) :
    chunkTextFuel fuel raw cs ov = chunkTextFuel fuel (normalizeWS raw) cs ov := by
  unfold chunkTextFuel
  rw [normalizeWS_idem]
